import Mathlib

/-!
Verification of the two core components of the lua-apr binding sources
(`src/io_file.c`, `src/io_dir.c`):

* the buffered file handle's seek reconciliation (`file_seek`),
* the recursive directory deletion engine (`lua_apr_dir_remove_recursive`),
* the directory/file handle close paths (`dir_close`, `dir_gc`,
  `file_close`, `file_close_real`),
* the argument extraction of `lua_apr_file_copy` / `_append` / `_rename`,
* the entry filter of `dir_read`.

The C code is shallowly embedded: machine integers for file offsets become
`Int` (`apr_off_t` is signed and wide; no overflow is exercised by the
claims), `size_t` buffer fields become `Nat`, fallible calls return
`Except`, and the statuses of the Apache Portable Runtime are natural
number codes.  Stateful C functions become pure functions from a state to
a new state plus a result.
-/

/-! ## Buffered file handle and seek reconciliation (`io_file.c`, `file_seek`) -/

/-- Status codes of the Apache Portable Runtime (`apr_status_t`).  Only the
distinctness of the codes matters for the control flow under verification;
the concrete values are nominal. -/
def APR_SUCCESS : Nat := 0

/-- Status code tested by `APR_STATUS_IS_ENOENT` ("no more entries" from
`apr_dir_read`, or a vanished file elsewhere). -/
def APR_ENOENT : Nat := 2

/-- Status code tested by `APR_STATUS_IS_INCOMPLETE` (requested metadata
fields could not all be retrieved). -/
def APR_INCOMPLETE : Nat := 20023

/-- Status code used by the model for an invalid raw seek (`EINVAL`). -/
def APR_EINVAL : Nat := 22

/-- The read/write buffer attached to a Lua/APR file object
(`lua_apr_buffer`): `index` is the application's cursor inside the buffer,
`limit` the count of valid buffered bytes.  Both are `size_t` in C. -/
structure Buffer where
  index : Nat
  limit : Nat
  deriving DecidableEq, Repr

/-- The underlying descriptor state seen by `apr_file_seek`: the OS cursor
position and the file size (used by `APR_END`). -/
structure RawFile where
  pos : Int
  size : Int
  deriving DecidableEq, Repr

/-- The `whence` argument of `apr_file_seek`. -/
inductive SeekMode where
  | aprSet
  | aprCur
  | aprEnd
  deriving DecidableEq, Repr

/-- A Lua/APR file object as far as `file_seek` is concerned: the raw
descriptor plus the buffer window (`file->buffer`). -/
structure LuaFile where
  raw : RawFile
  buffer : Buffer
  deriving DecidableEq, Repr

/-- Model of the external collaborator `apr_file_seek` (spec section 6:
"Underlying file: `seek(mode, offset) -> Result<pos, Error>`, standard
blocking descriptor-level semantics").  Standard `lseek` behaviour: the
target position is computed from the whence base, a negative target fails
with `EINVAL` and leaves the cursor unmoved, otherwise the cursor moves
and the resulting absolute position is reported back through the in/out
offset argument. -/
def apr_file_seek (f : RawFile) (mode : SeekMode) (offset : Int) :
    Except Nat (RawFile × Int) :=
  let newpos : Int :=
    match mode with
    | .aprSet => offset
    | .aprCur => f.pos + offset
    | .aprEnd => f.size + offset
  if 0 ≤ newpos then Except.ok ({ f with pos := newpos }, newpos)
  else Except.error APR_EINVAL

/-- Embedding of `file_seek` (`io_file.c` lines 396-439), parameterised by
the raw seek collaborator so that properties of the buffer bookkeeping can
be proved for every behaviour of the underlying descriptor.  Mirrors the C
statement for statement: query the OS cursor with a zero-offset `APR_CUR`
seek; compute `start_of_buf = end_of_buf - buffer.limit`; translate an
`APR_CUR` request into `APR_SET` at `offset + start_of_buf + buffer.index`;
perform the requested seek; then either re-index the buffer (resulting
position inside `[start_of_buf, end_of_buf]`) or invalidate it.  Returns
the possibly updated file object together with the result pushed to Lua. -/
def file_seek (rawSeek : RawFile → SeekMode → Int → Except Nat (RawFile × Int))
    (file : LuaFile) (mode : SeekMode) (offset : Int) :
    LuaFile × Except Nat Int :=
  match rawSeek file.raw SeekMode.aprCur 0 with
  | .error s => (file, .error s)
  | .ok (raw1, end_of_buf) =>
    let start_of_buf : Int := end_of_buf - file.buffer.limit
    let moff : SeekMode × Int :=
      if mode = SeekMode.aprCur then
        (SeekMode.aprSet, offset + (start_of_buf + file.buffer.index))
      else (mode, offset)
    match rawSeek raw1 moff.1 moff.2 with
    | .error s => ({ file with raw := raw1 }, .error s)
    | .ok (raw2, result) =>
      if start_of_buf ≤ result ∧ result ≤ end_of_buf then
        ({ raw := raw2,
           buffer := { index := (result - start_of_buf).toNat,
                       limit := file.buffer.limit } }, .ok result)
      else
        ({ raw := raw2, buffer := { index := 0, limit := 0 } }, .ok result)

/-- File offset of the first byte currently held in the buffer
(`start_of_buf` in the C code), expressed over the pre-call state. -/
def startOfBuf (file : LuaFile) : Int :=
  file.raw.pos - file.buffer.limit

/-- The application's logical file position: `start_of_buf + buffer.index`. -/
def logicalPos (file : LuaFile) : Int :=
  startOfBuf file + file.buffer.index

/-! ### Lemmas and claim theorems for the seek component -/

/-- Helper: with the descriptor cursor non-negative, the initial zero-offset
`APR_CUR` query of `file_seek` succeeds and reports the OS cursor. -/
theorem file_seek_query_ok (st : LuaFile) (h0 : 0 ≤ st.raw.pos) :
    apr_file_seek st.raw SeekMode.aprCur 0 =
      Except.ok ({ pos := st.raw.pos, size := st.raw.size }, st.raw.pos) := by
  unfold apr_file_seek
  simp [h0]

/-- Helper: an absolute seek to a non-negative offset succeeds and returns
that offset. -/
theorem file_seek_set_result (st : LuaFile) (off : Int)
    (h0 : 0 ≤ st.raw.pos) (hoff : 0 ≤ off) :
    (file_seek apr_file_seek st SeekMode.aprSet off).2 = Except.ok off := by
  unfold file_seek
  rw [file_seek_query_ok st h0]
  have h2 : apr_file_seek { pos := st.raw.pos, size := st.raw.size }
      SeekMode.aprSet off =
      Except.ok (({ pos := off, size := st.raw.size } : RawFile), off) := by
    unfold apr_file_seek
    simp [hoff]
  dsimp only
  rw [if_neg (by decide : ¬ (SeekMode.aprSet = SeekMode.aprCur))]
  simp only [h2]
  split <;> rfl

/-- C1: a relative-to-current seek is translated into an absolute seek at
`offset + (start_of_buf + buffer.index)` where
`start_of_buf = end_of_buf - buffer.limit` and `end_of_buf` is the
descriptor's current position (first conjunct, an unconditional program
equation); in particular when the application has logically consumed `K`
bytes (`logicalPos st = K`), `file:seek('cur', 0)` returns exactly `K`,
not the OS cursor position (second conjunct). -/
theorem file_seek_cur_is_logical (st : LuaFile) (off : Int) :
    file_seek apr_file_seek st SeekMode.aprCur off
      = file_seek apr_file_seek st SeekMode.aprSet
          (off + (startOfBuf st + st.buffer.index)) ∧
    (0 ≤ st.raw.pos → 0 ≤ logicalPos st →
      (file_seek apr_file_seek st SeekMode.aprCur 0).2 =
        Except.ok (logicalPos st)) := by
  have key : ∀ o : Int, file_seek apr_file_seek st SeekMode.aprCur o
      = file_seek apr_file_seek st SeekMode.aprSet
          (o + (startOfBuf st + st.buffer.index)) := by
    intro o
    unfold file_seek
    cases hq : apr_file_seek st.raw SeekMode.aprCur 0 with
    | error s => rfl
    | ok r =>
      obtain ⟨raw1, end_of_buf⟩ := r
      have hend : end_of_buf = st.raw.pos := by
        unfold apr_file_seek at hq
        simp at hq
        split at hq
        · simp at hq; omega
        · simp at hq
      simp only [hend, startOfBuf]
      rfl
  refine ⟨key off, fun hpos hlog => ?_⟩
  rw [key 0]
  have hz : (0 : Int) + (startOfBuf st + st.buffer.index) = logicalPos st := by
    simp [logicalPos]
  rw [hz]
  exact file_seek_set_result st _ hpos hlog

/-- Witness for C1 at a concrete state: OS cursor 10, buffer limit 8,
buffer index 3, so the application has logically consumed 5 bytes; a
zero-offset current seek returns 5 (not 10). -/
theorem file_seek_cur_is_logical_witness :
    (file_seek apr_file_seek ⟨⟨10, 20⟩, ⟨3, 8⟩⟩ SeekMode.aprCur 0).2 =
      Except.ok 5 := by
  have h := (file_seek_cur_is_logical ⟨⟨10, 20⟩, ⟨3, 8⟩⟩ 0).2
      (by decide) (by decide)
  simpa [logicalPos, startOfBuf] using h

/-- C2: on a successful seek, a resulting position inside the closed
interval `[start_of_buf, end_of_buf]` keeps the buffer (same `limit`) and
sets `index` to `position - start_of_buf`, while a resulting position
outside the interval invalidates the buffer (`index = limit = 0`). -/
theorem file_seek_buffer_update (st : LuaFile) (mode : SeekMode) (off : Int)
    (st2 : LuaFile) (p : Int)
    (h : file_seek apr_file_seek st mode off = (st2, Except.ok p)) :
    ((startOfBuf st ≤ p ∧ p ≤ st.raw.pos) →
       st2.buffer.index = (p - startOfBuf st).toNat ∧
       st2.buffer.limit = st.buffer.limit) ∧
    (¬(startOfBuf st ≤ p ∧ p ≤ st.raw.pos) →
       st2.buffer.index = 0 ∧ st2.buffer.limit = 0) := by
  revert h
  unfold file_seek
  split
  · intro h; simp at h
  · rename_i raw1 eob heq
    have hend : eob = st.raw.pos := by
      dsimp only [apr_file_seek] at heq
      split at heq
      · rw [Except.ok.injEq, Prod.mk.injEq] at heq
        omega
      · simp at heq
    dsimp only
    split
    · intro h; simp at h
    · rename_i raw2 result heq2
      split
      · rename_i hcond
        intro h
        rw [Prod.mk.injEq] at h
        obtain ⟨hst, hp⟩ := h
        rw [Except.ok.injEq] at hp
        subst hp
        subst hst
        refine ⟨fun _ => ⟨?_, rfl⟩, fun hnc => ?_⟩
        · simp only [startOfBuf, hend]
        · exfalso
          apply hnc
          simp only [startOfBuf]
          omega
      · rename_i hcond
        intro h
        rw [Prod.mk.injEq] at h
        obtain ⟨hst, hp⟩ := h
        rw [Except.ok.injEq] at hp
        subst hp
        subst hst
        refine ⟨fun hc => ?_, fun _ => ⟨rfl, rfl⟩⟩
        exfalso
        apply hcond
        simp only [startOfBuf] at hc
        omega

/-- Witness for C2 at a concrete call: from OS cursor 10, limit 5, index 2
(buffer window `[5, 10]`), an absolute seek to 3 lands outside the window
and invalidates the buffer. -/
theorem file_seek_buffer_update_witness :
    ¬(startOfBuf ⟨⟨10, 20⟩, ⟨2, 5⟩⟩ ≤ (3 : Int) ∧ (3 : Int) ≤ (10 : Int)) ∧
    ((⟨⟨3, 20⟩, ⟨0, 0⟩⟩ : LuaFile).buffer.index = 0 ∧
     (⟨⟨3, 20⟩, ⟨0, 0⟩⟩ : LuaFile).buffer.limit = 0) :=
  ⟨by decide,
   (file_seek_buffer_update ⟨⟨10, 20⟩, ⟨2, 5⟩⟩ SeekMode.aprSet 3
      ⟨⟨3, 20⟩, ⟨0, 0⟩⟩ 3 rfl).2 (by decide)⟩

/-- C5: whenever `file_seek` returns an error -- for any behaviour of the
underlying raw seek, covering both the initial current-position query and
the translated seek failing -- the buffer state (`index` and `limit`) is
left exactly as it was before the call. -/
theorem file_seek_error_preserves_buffer
    (rawSeek : RawFile → SeekMode → Int → Except Nat (RawFile × Int))
    (st : LuaFile) (mode : SeekMode) (off : Int) (s : Nat)
    (h : (file_seek rawSeek st mode off).2 = Except.error s) :
    (file_seek rawSeek st mode off).1.buffer = st.buffer := by
  revert h
  unfold file_seek
  split
  · intro _; rfl
  · dsimp only
    split
    · intro _; rfl
    · split
      · intro h; cases h
      · intro h; cases h

/-- Witness for C5 at a concrete failing call: seeking to absolute
position -7 fails with `EINVAL` and the buffer keeps `index = 4`,
`limit = 2`. -/
theorem file_seek_error_preserves_buffer_witness :
    (file_seek apr_file_seek ⟨⟨5, 10⟩, ⟨4, 2⟩⟩ SeekMode.aprSet (-7)).1.buffer
      = { index := 4, limit := 2 } :=
  file_seek_error_preserves_buffer apr_file_seek ⟨⟨5, 10⟩, ⟨4, 2⟩⟩
    SeekMode.aprSet (-7) APR_EINVAL rfl

/-! ## Recursive directory deletion (`io_dir.c`, `lua_apr_dir_remove_recursive`)

The engine is embedded over a snapshot of the directory tree.  This is
faithful for the success path because phase 1 removes only non-directory
entries, each directory is enumerated exactly once, and the files inside a
directory are removed only during that directory's own enumeration, so
every enumeration sees exactly the snapshot entries.  The observable
behaviour is a trace of the operations the engine issues, in order. -/

/-- A filesystem path, as produced by `apr_filepath_merge(base, name)`
(modelled as `base ++ [name]`). -/
abbrev FPath := List String

/-- A snapshot of a directory subtree: the entries yielded by the
enumerator, each either a non-directory entry (file, symlink, special
file) or a subdirectory with its own entries. -/
inductive FsTree where
  | file : String → FsTree
  | dir : String → List FsTree → FsTree

mutual
/-- Node count of a subtree (termination measure). -/
def sz : FsTree → Nat
  | .file _ => 1
  | .dir _ es => 1 + szList es
/-- Node count of an entry list (termination measure). -/
def szList : List FsTree → Nat
  | [] => 0
  | t :: ts => sz t + szList ts
end

/-- The operations issued by `lua_apr_dir_remove_recursive`, in program
order: `removeFile p` is `apr_file_remove` (line 190), `pushTodo p` is the
work-list push of a discovered subdirectory (line 184), `pushDone p`
records a fully enumerated directory on the completed list (line 199),
`clearMiddle` is `apr_pool_clear(middle_pool)` in phase 2 (line 208), and
`removeDir p` is `apr_dir_remove` (line 209). -/
inductive Event where
  | removeFile : FPath → Event
  | pushTodo : FPath → Event
  | pushDone : FPath → Event
  | clearMiddle : Event
  | removeDir : FPath → Event
  deriving DecidableEq, Repr

/-- Modelled from the spec: the helper `filename_symbolic` used at
`io_dir.c` lines 177 and 331 is declared in `lua_apr.h`, which is not part
of the sources under verification.  Per the spec ("Entries named `.` or
`..` (or their platform equivalent self/parent markers)", "the self or
parent marker") it recognises exactly the two special names. -/
def filename_symbolic (n : String) : Bool := n = "." || n = ".."

/-- The subdirectory entries of one directory, as pushed onto the work
list during its enumeration (`io_dir.c` lines 179-184): non-directory
entries and self/parent markers are not pushed; a pushed subdirectory is
recorded with its merged path and its own entries. -/
def subdirStack (p : FPath) (es : List FsTree) : List (FPath × List FsTree) :=
  es.filterMap fun t =>
    match t with
    | .file _ => none
    | .dir n es2 => if filename_symbolic n then none else some (p ++ [n], es2)

/-- The per-entry operations issued while one directory is enumerated
(`io_dir.c` lines 165-194), in entry order: self/parent markers are
skipped, a subdirectory is pushed onto the work list, any other entry is
removed as a file. -/
def entryEvs (p : FPath) (es : List FsTree) : List Event :=
  es.filterMap fun t =>
    match t with
    | .file n =>
      if filename_symbolic n then none else some (Event.removeFile (p ++ [n]))
    | .dir n _ =>
      if filename_symbolic n then none else some (Event.pushTodo (p ++ [n]))

/-- Total node count of the pending work list (termination measure for
phase 1). -/
def stackSz (st : List (FPath × List FsTree)) : Nat :=
  (st.map fun x => 1 + szList x.2).sum

theorem stackSz_append (a b : List (FPath × List FsTree)) :
    stackSz (a ++ b) = stackSz a + stackSz b := by
  simp [stackSz]

theorem stackSz_cons (x : FPath × List FsTree)
    (l : List (FPath × List FsTree)) :
    stackSz (x :: l) = 1 + szList x.2 + stackSz l := by
  simp [stackSz]

theorem stackSz_reverse (a : List (FPath × List FsTree)) :
    stackSz a.reverse = stackSz a := by
  simp [stackSz, List.map_reverse, List.sum_reverse]

theorem sz_pos (t : FsTree) : 1 ≤ sz t := by
  cases t <;> simp [sz]

theorem subdirStack_sz (p : FPath) (es : List FsTree) :
    stackSz (subdirStack p es) ≤ szList es := by
  induction es with
  | nil => simp [subdirStack, stackSz]
  | cons t ts ih =>
    cases t with
    | file n =>
      have h1 := sz_pos (FsTree.file n)
      simp only [subdirStack, List.filterMap_cons] at *
      simp only [szList]
      omega
    | dir n es2 =>
      simp only [subdirStack, List.filterMap_cons] at *
      by_cases hs : filename_symbolic n
      · simp only [hs, if_pos, szList, sz]
        have := sz_pos (FsTree.dir n es2)
        simp only [sz] at this
        omega
      · simp only [hs, if_neg, Bool.false_eq_true, ite_false]
        rw [stackSz_cons]
        simp only [szList, sz]
        omega

/-- Phase 1 of `lua_apr_dir_remove_recursive` (`io_dir.c` lines 155-200),
run from an arbitrary work-list state: pop the top directory, issue its
per-entry operations, push its subdirectories (so that the last-pushed
subdirectory is popped first, matching `apr_array_push`/`apr_array_pop`),
and append the directory itself to the completed list.  Returns the
completed list in completion order (first completed first -- the C array
is popped from the end in phase 2, which the model mirrors by reversing)
together with the trace of issued operations. -/
def phase1 : List (FPath × List FsTree) → List FPath × List Event
  | [] => ([], [])
  | (p, es) :: rest =>
    let r := phase1 ((subdirStack p es).reverse ++ rest)
    (p :: r.1, entryEvs p es ++ Event.pushDone p :: r.2)
termination_by st => stackSz st
decreasing_by
  have h := subdirStack_sz p es
  rw [stackSz_append, stackSz_reverse, stackSz_cons]
  dsimp only
  omega

/-- Phase 2 of `lua_apr_dir_remove_recursive` (`io_dir.c` lines 205-212):
pop each completed directory (the argument list is already in pop order),
test-and-increment the shared `allocation_counter` (clearing the middle
arena when the pre-increment value is divisible by 100), and issue the
empty-directory removal. -/
def phase2 : List FPath → Nat → List Event
  | [], _ => []
  | p :: rest, c =>
    (if c % 100 == 0 then [Event.clearMiddle] else []) ++
      Event.removeDir p :: phase2 rest (c + 1)

/-- Recogniser for `removeFile` events; phase 1 increments
`allocation_counter` exactly once per non-directory entry it removes
(`io_dir.c` line 188). -/
def isRemoveFile : Event → Bool
  | .removeFile _ => true
  | _ => false

/-- The directory-removal operations of a trace, in issue order. -/
def removeDirs (tr : List Event) : List FPath :=
  tr.filterMap fun e =>
    match e with
    | .removeDir p => some p
    | _ => none

/-- The whole success-path execution of `lua_apr_dir_remove_recursive` on
the tree rooted at path `r` with root entries `es0`: phase 1 starting from
the singleton work list, then phase 2 over the completed list popped in
reverse, with the allocation counter carried over from phase 1. -/
def deleteTreeTrace (r : FPath) (es0 : List FsTree) : List Event :=
  let x := phase1 [(r, es0)]
  x.2 ++ phase2 x.1.reverse (x.2.countP (fun e => isRemoveFile e))

/-! ### Well-formed trees and auxiliary notions -/

/-- The name of an entry (`info.name`). -/
def nameOf : FsTree → String
  | .file n => n
  | .dir n _ => n

mutual
/-- Well-formedness of a subtree: every directory's entry names are
pairwise distinct, as on a real filesystem. -/
def wfT : FsTree → Bool
  | .file _ => true
  | .dir _ es => wfL es
/-- Well-formedness of an entry list: names pairwise distinct, entries
recursively well-formed. -/
def wfL : List FsTree → Bool
  | [] => true
  | t :: ts => wfT t && !((ts.map nameOf).contains (nameOf t)) && wfL ts
end

/-- Two paths neither of which is a prefix of the other (distinct,
non-nested filesystem locations). -/
def Incomp (a b : FPath) : Prop := ¬(a <+: b) ∧ ¬(b <+: a)

theorem wfL_sub (es : List FsTree) (n : String) (es2 : List FsTree)
    (h : wfL es = true) (hm : FsTree.dir n es2 ∈ es) : wfL es2 = true := by
  induction es with
  | nil => cases hm
  | cons t ts ih =>
    simp only [wfL] at h
    simp at h
    obtain ⟨⟨h1, h2⟩, h3⟩ := h
    rcases List.mem_cons.mp hm with h4 | h4
    · subst h4
      simpa [wfT] using h1
    · exact ih h3 h4

theorem wfL_names (es : List FsTree) (h : wfL es = true) :
    es.Pairwise (fun a b => nameOf a ≠ nameOf b) := by
  induction es with
  | nil => exact List.Pairwise.nil
  | cons t ts ih =>
    simp only [wfL] at h
    simp at h
    obtain ⟨⟨h1, h2⟩, h3⟩ := h
    refine List.Pairwise.cons ?_ (ih h3)
    intro b hb heq
    exact (h2 b hb) heq.symm

/-- Phase 1 processes the work-list stack segment by segment: the first
item and everything it spawns are handled before the remaining items. -/
theorem phase1_append (s1 s2 : List (FPath × List FsTree)) :
    phase1 (s1 ++ s2) =
      ((phase1 s1).1 ++ (phase1 s2).1, (phase1 s1).2 ++ (phase1 s2).2) := by
  induction s1 using phase1.induct generalizing s2 with
  | case1 => simp [phase1]
  | case2 p es rest ih =>
    rw [show ((p, es) :: rest) ++ s2 = (p, es) :: (rest ++ s2) from rfl]
    rw [phase1, phase1]
    rw [show (subdirStack p es).reverse ++ (rest ++ s2)
        = ((subdirStack p es).reverse ++ rest) ++ s2 from by simp]
    rw [ih]
    simp

theorem subdirStack_mem_shape (p : FPath) (es : List FsTree)
    (x : FPath × List FsTree) (hx : x ∈ subdirStack p es) :
    ∃ n, x.1 = p ++ [n] ∧ FsTree.dir n x.2 ∈ es ∧
      filename_symbolic n = false := by
  simp only [subdirStack, List.mem_filterMap] at hx
  obtain ⟨t, ht, hf⟩ := hx
  cases t with
  | file n => simp at hf
  | dir n es2 =>
    by_cases hs : filename_symbolic n
    · simp [hs] at hf
    · simp [hs] at hf
      refine ⟨n, ?_, ?_, by simpa using hs⟩
      · rw [← hf]
      · rw [← hf]
        simpa using ht

/-- Every completed directory descends from some work-list item. -/
theorem phase1_done_mem (st : List (FPath × List FsTree)) (q : FPath)
    (hq : q ∈ (phase1 st).1) : ∃ x ∈ st, x.1 <+: q := by
  induction st using phase1.induct with
  | case1 => simp [phase1] at hq
  | case2 p es rest ih =>
    rw [phase1] at hq
    rcases List.mem_cons.mp hq with h | h
    · exact ⟨(p, es), List.mem_cons_self _ _, by simp [h]⟩
    · obtain ⟨x, hx, hpre⟩ := ih h
      rcases List.mem_append.mp hx with h2 | h2
      · have h3 := subdirStack_mem_shape p es x (List.mem_reverse.mp h2)
        obtain ⟨n, hx1, _, _⟩ := h3
        refine ⟨(p, es), List.mem_cons_self _ _, ?_⟩
        calc (p, es).1 <+: p ++ [n] := by simp
        _ = x.1 := hx1.symm
        _ <+: q := hpre
      · exact ⟨x, List.mem_cons_of_mem _ h2, hpre⟩

theorem append_singleton_incomp (p : FPath) (na nb : String) (h : na ≠ nb) :
    Incomp (p ++ [na]) (p ++ [nb]) := by
  constructor <;> intro hp
  · have := hp.eq_of_length (by simp)
    simp at this
    exact h this
  · have := hp.eq_of_length (by simp)
    simp at this
    exact h this.symm

theorem child_incomp (p x : FPath) (n : String) (h : Incomp p x) :
    Incomp (p ++ [n]) x := by
  constructor
  · intro hp
    exact h.1 ((List.prefix_append p [n]).trans hp)
  · intro hp
    rcases List.prefix_or_prefix_of_prefix hp (List.prefix_append p [n])
        with h2 | h2
    · exact h.2 h2
    · exact h.1 h2

/-- Main invariant of phase 1: starting from a work list of well-formed,
pairwise incomparable directories, the completed list (in completion
order) never has a later element that is a strict ancestor of an earlier
element -- ancestors always complete before their descendants. -/
theorem phase1_done_pairwise (st : List (FPath × List FsTree))
    (hwf : ∀ x ∈ st, wfL x.2 = true)
    (hinc : st.Pairwise (fun a b => Incomp a.1 b.1)) :
    (phase1 st).1.Pairwise (fun a b => ¬(b <+: a ∧ b ≠ a)) := by
  induction st using phase1.induct with
  | case1 => simp [phase1]
  | case2 p es rest ih =>
    have hbase := List.pairwise_cons.mp hinc
    have hwfes : wfL es = true := hwf (p, es) (List.mem_cons_self _ _)
    have hwf2 : ∀ x ∈ (subdirStack p es).reverse ++ rest, wfL x.2 = true := by
      intro x hx
      rcases List.mem_append.mp hx with h2 | h2
      · obtain ⟨n, _, hmem, _⟩ :=
          subdirStack_mem_shape p es x (List.mem_reverse.mp h2)
        exact wfL_sub es n x.2 hwfes hmem
      · exact hwf x (List.mem_cons_of_mem _ h2)
    have hinc2 : ((subdirStack p es).reverse ++ rest).Pairwise
        (fun a b => Incomp a.1 b.1) := by
      rw [List.pairwise_append]
      refine ⟨?_, hbase.2, ?_⟩
      · rw [List.pairwise_reverse]
        have hn := wfL_names es hwfes
        simp only [subdirStack]
        rw [List.pairwise_filterMap]
        refine hn.imp ?_
        intro a b hab x hx y hy
        cases a with
        | file n => simp at hx
        | dir na esa =>
          cases b with
          | file n => simp at hy
          | dir nb esb =>
            by_cases hsa : filename_symbolic na
            · simp [hsa] at hx
            · by_cases hsb : filename_symbolic nb
              · simp [hsb] at hy
              · simp [hsa] at hx
                simp [hsb] at hy
                rw [← hx, ← hy]
                simp only [nameOf] at hab
                exact append_singleton_incomp p nb na (fun he => hab he.symm)
      · intro a ha b hb
        obtain ⟨n, ha1, _, _⟩ :=
          subdirStack_mem_shape p es a (List.mem_reverse.mp ha)
        have hpb : Incomp p b.1 := hbase.1 b hb
        rw [ha1]
        exact child_incomp p b.1 n hpb
    rw [phase1]
    refine List.Pairwise.cons ?_ (ih hwf2 hinc2)
    intro q hq hcontra
    obtain ⟨hpre, hne⟩ := hcontra
    obtain ⟨x, hx, hxq⟩ := phase1_done_mem _ _ hq
    rcases List.mem_append.mp hx with h2 | h2
    · obtain ⟨n, hx1, _, _⟩ :=
        subdirStack_mem_shape p es x (List.mem_reverse.mp h2)
      have l1 : (p ++ [n]).length ≤ q.length := by
        rw [← hx1]
        exact hxq.length_le
      have l2 : q.length ≤ p.length := hpre.length_le
      simp at l1
      omega
    · exact (hbase.1 x h2).2 (hxq.trans hpre)

/-! ### Extracting the removal order -/

theorem removeDirs_append (a b : List Event) :
    removeDirs (a ++ b) = removeDirs a ++ removeDirs b := by
  simp [removeDirs]

theorem removeDirs_cons (e : Event) (tr : List Event) :
    removeDirs (e :: tr) =
      (match e with | .removeDir p => [p] | _ => []) ++ removeDirs tr := by
  cases e <;> simp [removeDirs]

/-- Phase 2 issues exactly its input directories, in order. -/
theorem removeDirs_phase2 (d : List FPath) (c : Nat) :
    removeDirs (phase2 d c) = d := by
  induction d generalizing c with
  | nil => simp [phase2, removeDirs]
  | cons p rest ih =>
    rw [phase2, removeDirs_append, removeDirs_cons]
    by_cases hc : c % 100 == 0
    · rw [if_pos hc, removeDirs_cons]
      simpa [removeDirs] using ih (c + 1)
    · rw [if_neg hc]
      simpa [removeDirs] using ih (c + 1)

theorem removeDirs_entryEvs (p : FPath) (es : List FsTree) :
    removeDirs (entryEvs p es) = [] := by
  induction es with
  | nil => rfl
  | cons t ts ih =>
    cases t with
    | file n =>
      by_cases hs : filename_symbolic n <;>
        simp [entryEvs, List.filterMap_cons, hs, removeDirs] at ih ⊢ <;>
        simpa [removeDirs] using ih
    | dir n es2 =>
      by_cases hs : filename_symbolic n <;>
        simp [entryEvs, List.filterMap_cons, hs, removeDirs] at ih ⊢ <;>
        simpa [removeDirs] using ih

/-- Phase 1 issues no directory removals. -/
theorem removeDirs_phase1 (st : List (FPath × List FsTree)) :
    removeDirs (phase1 st).2 = [] := by
  induction st using phase1.induct with
  | case1 =>
    rw [phase1]
    rfl
  | case2 p es rest ih =>
    rw [phase1]
    dsimp only
    rw [show entryEvs p es ++ Event.pushDone p ::
        (phase1 ((subdirStack p es).reverse ++ rest)).2
        = entryEvs p es ++ [Event.pushDone p] ++
          (phase1 ((subdirStack p es).reverse ++ rest)).2 from by simp]
    rw [removeDirs_append, removeDirs_append, removeDirs_entryEvs, ih]
    rfl

/-- The directory removals of a whole run are exactly the completed list,
popped in reverse of completion order. -/
theorem removeDirs_deleteTreeTrace (r : FPath) (es0 : List FsTree) :
    removeDirs (deleteTreeTrace r es0) = (phase1 [(r, es0)]).1.reverse := by
  unfold deleteTreeTrace
  rw [removeDirs_append, removeDirs_phase1, removeDirs_phase2]
  rfl

/-- C3: in every execution of the recursive tree deletion on a
well-formed tree, the empty-directory removal of a directory `p` is
issued only after the removals of all of its descendant directories: if
`p` is a strict ancestor of `q` and both removals appear in the trace,
then `q` is removed at a strictly earlier trace position than `p`. -/
theorem dir_remove_children_before_parents (r : FPath) (es0 : List FsTree)
    (hwf : wfL es0 = true) (i j : Nat) (p q : FPath)
    (hi : (removeDirs (deleteTreeTrace r es0)).get? i = some p)
    (hj : (removeDirs (deleteTreeTrace r es0)).get? j = some q)
    (hpq : p <+: q) (hne : p ≠ q) : j < i := by
  rw [removeDirs_deleteTreeTrace] at hi hj
  have hpw : (phase1 [(r, es0)]).1.Pairwise
      (fun a b => ¬(b <+: a ∧ b ≠ a)) := by
    refine phase1_done_pairwise _ ?_ ?_
    · intro x hx
      rcases List.mem_singleton.mp hx with h
      rw [h]
      exact hwf
    · simp
  have hpw2 : (phase1 [(r, es0)]).1.reverse.Pairwise
      (fun a b => ¬(a <+: b ∧ a ≠ b)) := by
    rw [List.pairwise_reverse]
    exact hpw
  obtain ⟨hli, hvi⟩ := List.get?_eq_some.mp hi
  obtain ⟨hlj, hvj⟩ := List.get?_eq_some.mp hj
  by_contra hji
  push_neg at hji
  rcases Nat.lt_or_ge i j with hij | hij
  · have hr := List.pairwise_iff_getElem.mp hpw2 i j hli hlj hij
    rw [List.get_eq_getElem] at hvi hvj
    rw [hvi, hvj] at hr
    exact hr ⟨hpq, hne⟩
  · have hieq : i = j := by omega
    subst hieq
    rw [List.get_eq_getElem] at hvi hvj
    rw [hvi] at hvj
    exact hne (hvj ▸ rfl)

/-- Witness for C3 at the concrete tree `root/sub/f`: the subdirectory
`root/sub` is removed at trace position 0, the ancestor `root` at
position 1, and the theorem yields `0 < 1`. -/
theorem dir_remove_children_before_parents_witness :
    (removeDirs (deleteTreeTrace ["root"]
        [FsTree.dir "sub" [FsTree.file "f"]])).get? 1 = some ["root"] ∧
    (removeDirs (deleteTreeTrace ["root"]
        [FsTree.dir "sub" [FsTree.file "f"]])).get? 0 = some ["root", "sub"] ∧
    (0 : Nat) < 1 := by
  have htr : removeDirs
      (deleteTreeTrace ["root"] [FsTree.dir "sub" [FsTree.file "f"]]) =
      [["root", "sub"], ["root"]] := by
    simp [deleteTreeTrace, phase1, subdirStack, entryEvs, phase2,
      filename_symbolic, isRemoveFile, removeDirs]
  refine ⟨by rw [htr]; rfl, by rw [htr]; rfl, ?_⟩
  exact dir_remove_children_before_parents ["root"]
    [FsTree.dir "sub" [FsTree.file "f"]] (by decide) 1 0
    ["root"] ["root", "sub"]
    (by rw [htr]; rfl) (by rw [htr]; rfl) (by simp) (by simp)

/-! ### The phase-2 middle-arena clear cadence -/

theorem phase2_append (a b : List FPath) (c : Nat) :
    phase2 (a ++ b) c = phase2 a c ++ phase2 b (c + a.length) := by
  induction a generalizing c with
  | nil => simp [phase2]
  | cons p rest ih =>
    rw [List.cons_append, phase2, phase2, ih (c + 1)]
    have h2 : c + 1 + rest.length = c + (rest.length + 1) := by omega
    rw [h2]
    simp

/-- The number of middle-arena clears issued over `n` removals starting
from counter value `c`: one for each counter value divisible by 100. -/
def expectedClears : Nat → Nat → Nat
  | 0, _ => 0
  | n + 1, c => (if c % 100 == 0 then 1 else 0) + expectedClears n (c + 1)

theorem phase2_count_clear (l : List FPath) (c : Nat) :
    (phase2 l c).count Event.clearMiddle = expectedClears l.length c := by
  induction l generalizing c with
  | nil => simp [phase2, expectedClears]
  | cons p rest ih =>
    rw [phase2]
    by_cases hc : c % 100 == 0
    · rw [if_pos hc]
      simp only [List.length_cons, expectedClears, hc, if_pos]
      rw [List.count_append, List.count_cons]
      simp [ih (c + 1), List.count_cons]
    · rw [if_neg hc]
      simp only [List.length_cons, expectedClears, hc, if_neg]
      rw [List.nil_append, List.count_cons]
      simp [ih (c + 1)]

theorem expectedClears_mod (n c : Nat) :
    expectedClears n c = expectedClears n (c % 100) := by
  induction n generalizing c with
  | zero => rfl
  | succ n ih =>
    rw [expectedClears, expectedClears, ih (c + 1), ih (c % 100 + 1)]
    have h1 : (c % 100) % 100 = c % 100 := by omega
    have h2 : (c + 1) % 100 = (c % 100 + 1) % 100 := by omega
    rw [h1, h2]

set_option maxRecDepth 4000 in
theorem expectedClears_100 (c : Nat) : expectedClears 100 c = 1 := by
  rw [expectedClears_mod]
  have h : c % 100 < 100 := by omega
  have key : ∀ r, r < 100 → expectedClears 100 r = 1 := by decide
  exact key _ h

/-- C7: during phase 2 the middle arena is cleared once every 100
directory removals: any window of 100 consecutive removals (`win`, at
offset `pre.length` into the phase), run with the allocation counter
carried from phase 1 (`c0`), contains exactly one `clearMiddle`; the
first conjunct shows the window decomposition of the phase-2 trace. -/
theorem dir_remove_phase2_clears_every_100
    (done pre win post : List FPath) (c0 : Nat)
    (hd : done = pre ++ win ++ post) (hw : win.length = 100) :
    phase2 done c0 =
      phase2 pre c0 ++ phase2 win (c0 + pre.length) ++
        phase2 post (c0 + pre.length + 100) ∧
    (phase2 win (c0 + pre.length)).count Event.clearMiddle = 1 := by
  constructor
  · subst hd
    rw [phase2_append, phase2_append]
    simp [List.length_append, hw, Nat.add_assoc]
  · rw [phase2_count_clear, hw, expectedClears_100]

/-- Witness for C7: a run of exactly 100 removals starting at counter 0
issues exactly one middle-arena clear. -/
theorem dir_remove_phase2_clears_every_100_witness :
    (phase2 (List.replicate 100 ([] : FPath)) 0).count Event.clearMiddle
      = 1 := by
  have h := (dir_remove_phase2_clears_every_100
      (List.replicate 100 ([] : FPath)) [] (List.replicate 100 ([] : FPath))
      [] 0 (by simp) (by simp)).2
  simpa using h

/-! ### Trace decomposition per directory (phase 1) -/

theorem phase1_singleton (p : FPath) (es : List FsTree) :
    phase1 [(p, es)] =
      (p :: (phase1 (subdirStack p es).reverse).1,
       entryEvs p es ++ Event.pushDone p ::
         (phase1 (subdirStack p es).reverse).2) := by
  rw [phase1]
  simp

/-- Resolve one name among a directory's entries, as the engine's
enumeration would encounter it: the first subdirectory entry carrying
that name. -/
def lookupDir : List FsTree → String → Option (List FsTree)
  | [], _ => none
  | .file _ :: ts, n => lookupDir ts n
  | .dir m es2 :: ts, n => if m = n then some es2 else lookupDir ts n

/-- Resolve a relative path to the entry list of the directory it names;
self/parent markers never resolve because the engine skips them. -/
def findDirs (es : List FsTree) : FPath → Option (List FsTree)
  | [] => some es
  | n :: rel =>
    if filename_symbolic n then none
    else
      match lookupDir es n with
      | some es2 => findDirs es2 rel
      | none => none

theorem lookupDir_mem (es : List FsTree) (n : String) (es2 : List FsTree)
    (h : lookupDir es n = some es2) : FsTree.dir n es2 ∈ es := by
  induction es with
  | nil => cases h
  | cons t ts ih =>
    cases t with
    | file m =>
      rw [lookupDir] at h
      exact List.mem_cons_of_mem _ (ih h)
    | dir m esm =>
      rw [lookupDir] at h
      by_cases hm : m = n
      · rw [if_pos hm] at h
        obtain rfl : esm = es2 := by simpa using h
        subst hm
        exact List.mem_cons_self _ _
      · rw [if_neg hm] at h
        exact List.mem_cons_of_mem _ (ih h)

theorem subdirStack_mem_of (p : FPath) (es : List FsTree) (n : String)
    (es2 : List FsTree) (hm : FsTree.dir n es2 ∈ es)
    (hs : filename_symbolic n = false) :
    (p ++ [n], es2) ∈ subdirStack p es := by
  simp only [subdirStack, List.mem_filterMap]
  exact ⟨FsTree.dir n es2, hm, by simp [hs]⟩

/-- The trace of a stack contains the whole trace of each of its items as
a contiguous segment. -/
theorem trace_sub_of_mem (st : List (FPath × List FsTree))
    (x : FPath × List FsTree) (hx : x ∈ st) :
    ∃ pre suf, (phase1 st).2 = pre ++ (phase1 [x]).2 ++ suf := by
  induction st with
  | nil => cases hx
  | cons y rest ih =>
    have hsplit : (phase1 (y :: rest)).2 =
        (phase1 [y]).2 ++ (phase1 rest).2 := by
      rw [show y :: rest = [y] ++ rest from rfl, phase1_append]
    rcases List.mem_cons.mp hx with h | h
    · subst h
      exact ⟨[], (phase1 rest).2, by simp [hsplit]⟩
    · obtain ⟨pre, suf, heq⟩ := ih h
      exact ⟨(phase1 [y]).2 ++ pre, suf, by simp [hsplit, heq]⟩

/-- The trace of a directory's run contains the whole trace of each
directory reachable below it. -/
theorem trace_sub_of_findDirs (rel : FPath) :
    ∀ (p : FPath) (es es2 : List FsTree), findDirs es rel = some es2 →
      ∃ pre suf, (phase1 [(p, es)]).2 =
        pre ++ (phase1 [(p ++ rel, es2)]).2 ++ suf := by
  induction rel with
  | nil =>
    intro p es es2 h
    rw [findDirs] at h
    obtain rfl : es = es2 := by simpa using h
    exact ⟨[], [], by simp⟩
  | cons n rel2 ih =>
    intro p es es2 h
    rw [findDirs] at h
    by_cases hs : filename_symbolic n
    · rw [if_pos hs] at h
      cases h
    · rw [if_neg hs] at h
      cases hl : lookupDir es n with
      | none => rw [hl] at h; cases h
      | some esn =>
        rw [hl] at h
        dsimp only at h
        obtain ⟨pre1, suf1, heq1⟩ :=
          trace_sub_of_mem (subdirStack p es).reverse (p ++ [n], esn)
            (List.mem_reverse.mpr
              (subdirStack_mem_of p es n esn (lookupDir_mem es n esn hl)
                (by simpa using hs)))
        obtain ⟨pre2, suf2, heq2⟩ := ih (p ++ [n]) esn es2 h
        rw [show (p ++ [n]) ++ rel2 = p ++ (n :: rel2) from by simp] at heq2
        refine ⟨entryEvs p es ++ Event.pushDone p :: (pre1 ++ pre2),
                suf2 ++ suf1, ?_⟩
        rw [phase1_singleton p es, heq1, heq2]
        simp

/-- C4 (amended): for every directory of the tree, all of its per-entry
operations -- the removals of its immediate files and the work-list
recordings of its immediate subdirectories -- are issued before its path
is pushed onto the completed list.  (The subdirectories themselves are
recorded, not yet emptied, at that point.) -/
theorem dir_remove_entries_handled_before_done (r : FPath)
    (es0 : List FsTree) (rel : FPath) (es : List FsTree)
    (h : findDirs es0 rel = some es) :
    ∃ i, (deleteTreeTrace r es0).get? i = some (Event.pushDone (r ++ rel)) ∧
      ∀ e ∈ entryEvs (r ++ rel) es,
        ∃ j, j < i ∧ (deleteTreeTrace r es0).get? j = some e := by
  obtain ⟨pre, suf, heq⟩ := trace_sub_of_findDirs rel r es0 es h
  rw [phase1_singleton (r ++ rel) es] at heq
  obtain ⟨tail, hfull⟩ : ∃ tail, deleteTreeTrace r es0 =
      (pre ++ entryEvs (r ++ rel) es) ++ Event.pushDone (r ++ rel) :: tail := by
    refine ⟨(phase1 (subdirStack (r ++ rel) es).reverse).2 ++ suf ++
      phase2 (phase1 [(r, es0)]).1.reverse
        ((phase1 [(r, es0)]).2.countP (fun e => isRemoveFile e)), ?_⟩
    dsimp only [deleteTreeTrace]
    rw [heq]
    simp [List.append_assoc]
  refine ⟨(pre ++ entryEvs (r ++ rel) es).length, ?_, ?_⟩
  · rw [hfull, List.get?_append_right (le_refl _)]
    simp
  · intro e he
    obtain ⟨k, hk⟩ := List.get?_of_mem he
    have hklen : k < (entryEvs (r ++ rel) es).length :=
      (List.get?_eq_some.mp hk).1
    refine ⟨pre.length + k, by simp [List.length_append]; omega, ?_⟩
    rw [hfull]
    rw [List.get?_append (by simp [List.length_append]; omega)]
    rw [List.get?_append_right (by omega : pre.length ≤ pre.length + k)]
    simpa using hk

/-- Counterexample to C4 as stated: on the tree `root/sub/f`, the
completed-list push of `root` (trace position 1) precedes the deletion of
the file `root/sub/f` inside `root`'s subtree (trace position 2), so
`root` is pushed onto the done list before its subdirectory `sub` has
been emptied. -/
theorem dir_remove_done_before_subtree_emptied :
    ¬ (∀ i j p q,
        (deleteTreeTrace ["root"] [FsTree.dir "sub" [FsTree.file "f"]]).get? i
          = some (Event.pushDone p) →
        (deleteTreeTrace ["root"] [FsTree.dir "sub" [FsTree.file "f"]]).get? j
          = some (Event.removeFile q) →
        p <+: q → j < i) := by
  intro hcl
  have htr : deleteTreeTrace ["root"] [FsTree.dir "sub" [FsTree.file "f"]] =
      [Event.pushTodo ["root", "sub"], Event.pushDone ["root"],
       Event.removeFile ["root", "sub", "f"], Event.pushDone ["root", "sub"],
       Event.removeDir ["root", "sub"], Event.removeDir ["root"]] := by
    simp [deleteTreeTrace, phase1, subdirStack, entryEvs, phase2,
      filename_symbolic, isRemoveFile]
  have h := hcl 1 2 ["root"] ["root", "sub", "f"]
      (by rw [htr]; rfl) (by rw [htr]; rfl) (by simp)
  omega

/-- Witness for the amended C4 at the concrete tree `root/sub/f`, for the
directory `root/sub`: its file-removal event precedes its done push. -/
theorem dir_remove_entries_handled_before_done_witness :
    ∃ i, (deleteTreeTrace ["root"]
        [FsTree.dir "sub" [FsTree.file "f"]]).get? i
        = some (Event.pushDone ["root", "sub"]) ∧
      ∀ e ∈ entryEvs ["root", "sub"] [FsTree.file "f"],
        ∃ j, j < i ∧
          (deleteTreeTrace ["root"]
            [FsTree.dir "sub" [FsTree.file "f"]]).get? j = some e := by
  have h := dir_remove_entries_handled_before_done ["root"]
      [FsTree.dir "sub" [FsTree.file "f"]] ["sub"] [FsTree.file "f"]
      (by simp [findDirs, lookupDir, filename_symbolic])
  simpa using h

/-! ## Enumeration status handling inside the deletion loop
(`io_dir.c` lines 165-194, claim C6)

The drain loop is additionally embedded over an arbitrary stream of
`apr_dir_read` outcomes (status code plus entry data), so that the
dispatch on the status -- `APR_STATUS_IS_ENOENT` breaking the loop, any
status other than `APR_SUCCESS`/`APR_INCOMPLETE` jumping to cleanup and
making the whole deletion return that error, everything else processing
the entry -- can be verified for every status, not only the clean streams
a static tree produces. -/

/-- One entry as reported by `apr_dir_read` with
`APR_FINFO_NAME|APR_FINFO_TYPE|APR_FINFO_LINK`: its name and whether its
`filetype` is `APR_DIR`. -/
structure DirEnt where
  name : String
  isDir : Bool
  deriving DecidableEq, Repr

/-- The enumeration loop of `lua_apr_dir_remove_recursive` over a stream
of read outcomes: `APR_ENOENT` ends the loop normally (ignoring the rest
of the stream), any other status that is neither `APR_SUCCESS` nor
`APR_INCOMPLETE` aborts with that error (`goto cleanup`, which makes the
whole deletion return it), a self/parent marker is skipped, a directory
entry is recorded on the work list and any other entry is removed as a
file.  Entry processing itself is taken on its success path. -/
def drainDir (p : FPath) : List (Nat × DirEnt) → Except Nat (List Event)
  | [] => Except.ok []
  | (s, e) :: rest =>
    if s = APR_ENOENT then Except.ok []
    else if s ≠ APR_SUCCESS ∧ s ≠ APR_INCOMPLETE then Except.error s
    else if filename_symbolic e.name then drainDir p rest
    else if e.isDir then
      (drainDir p rest).map (fun evs => Event.pushTodo (p ++ [e.name]) :: evs)
    else
      (drainDir p rest).map (fun evs => Event.removeFile (p ++ [e.name]) :: evs)

/-- C6: a "no more entries" status ends the directory's loop normally
(first conjunct, regardless of what follows in the stream); an
"incomplete" status is treated exactly like success (second conjunct);
and every other non-success status aborts the deletion, which returns
that error (third conjunct). -/
theorem dir_remove_enumeration_status (p : FPath) (e : DirEnt)
    (rest : List (Nat × DirEnt)) (s : Nat) :
    drainDir p ((APR_ENOENT, e) :: rest) = Except.ok [] ∧
    drainDir p ((APR_INCOMPLETE, e) :: rest)
      = drainDir p ((APR_SUCCESS, e) :: rest) ∧
    (s ≠ APR_SUCCESS → s ≠ APR_INCOMPLETE → s ≠ APR_ENOENT →
      drainDir p ((s, e) :: rest) = Except.error s) := by
  refine ⟨?_, ?_, ?_⟩
  · rw [drainDir]
    simp
  · rw [drainDir, drainDir]
    norm_num [APR_ENOENT, APR_SUCCESS, APR_INCOMPLETE]
  · intro h1 h2 h3
    rw [drainDir]
    rw [if_neg h3, if_pos ⟨h1, h2⟩]

/-- Witness for C6: status 13 (neither success, incomplete nor
no-more-entries) aborts the drain with error 13. -/
theorem dir_remove_enumeration_status_witness :
    drainDir [] [((13 : Nat), DirEnt.mk "x" false)] = Except.error 13 :=
  (dir_remove_enumeration_status [] (DirEnt.mk "x" false) [] 13).2.2
    (by norm_num [APR_SUCCESS]) (by norm_num [APR_INCOMPLETE])
    (by norm_num [APR_ENOENT])

/-! ## Handle close paths (`io_dir.c` `dir_close`/`dir_gc`,
`io_file.c` `file_close`/`file_close_real`, claim C8) -/

/-- A Lua/APR directory object: whether `object->handle` is non-NULL and
whether its memory pool is still alive. -/
structure LuaAprDir where
  handleOpen : Bool
  poolAlive : Bool
  deriving DecidableEq, Repr

/-- Embedding of `dir_close` (`io_dir.c` lines 362-372): `checkdir(L, 1, 1)`
raises "attempt to use a closed directory" when the handle is NULL;
otherwise the handle is closed and set to NULL.  Note the memory pool is
not destroyed here -- only `dir_gc` destroys it. -/
def dir_close (d : LuaAprDir) : Except String (LuaAprDir × Nat) :=
  if d.handleOpen = false then Except.error "attempt to use a closed directory"
  else Except.ok ({ d with handleOpen := false }, APR_SUCCESS)

/-- Embedding of `dir_gc` (`io_dir.c` lines 386-399): guarded by
`if (object->handle)`, it closes the handle, destroys the pool and NULLs
the handle; on an already-closed object it does nothing. -/
def dir_gc (d : LuaAprDir) : LuaAprDir :=
  if d.handleOpen then { handleOpen := false, poolAlive := false } else d

/-- A Lua/APR file object's resources: handle, memory pool, buffer. -/
structure LuaAprFileRes where
  handleOpen : Bool
  poolAlive : Bool
  bufferAlive : Bool
  deriving DecidableEq, Repr

/-- Embedding of `file_close_real` (`io_file.c` lines 542-552): guarded by
`if (file->handle)`, it closes the handle, destroys the pool, frees the
buffer and NULLs the handle; on an already-closed object it is a no-op
returning `APR_SUCCESS`. -/
def file_close_real (f : LuaAprFileRes) : LuaAprFileRes × Nat :=
  if f.handleOpen then
    ({ handleOpen := false, poolAlive := false, bufferAlive := false },
      APR_SUCCESS)
  else (f, APR_SUCCESS)

/-- Embedding of `file_close` (`io_file.c` lines 523-532):
`file_check(L, 1, 1)` raises "attempt to use a closed file" when the
handle is NULL, otherwise `file_close_real` runs. -/
def file_close (f : LuaAprFileRes) : Except String (LuaAprFileRes × Nat) :=
  if f.handleOpen = false then Except.error "attempt to use a closed file"
  else Except.ok (file_close_real f)

/-- Counterexample to C8 as stated: calling the explicit close method on
an already-closed directory or file handle is not a succeeding no-op --
it raises a Lua error ("attempt to use a closed directory/file"), because
`dir_close` and `file_close` check the handle with `check_open = 1`. -/
theorem close_on_closed_handle_raises :
    dir_close { handleOpen := false, poolAlive := true } =
      Except.error "attempt to use a closed directory" ∧
    file_close { handleOpen := false, poolAlive := true, bufferAlive := true } =
      Except.error "attempt to use a closed file" :=
  ⟨rfl, rfl⟩

/-- C8 (amended): the garbage-collection close paths (`dir_gc`,
`file_close_real`) release the handle and its arena exactly once and are
idempotent -- re-running them on a closed object is a succeeding no-op --
while the explicit close methods (`dir_close`, `file_close`) raise an
"attempt to use a closed ..." error on an already-closed handle
(`dir_close` moreover releases only the handle, leaving the arena to the
garbage collector). -/
theorem handle_close_exactly_once (d : LuaAprDir) (f : LuaAprFileRes) :
    dir_gc (dir_gc d) = dir_gc d ∧
    (dir_gc d).handleOpen = false ∧
    (d.handleOpen = true → (dir_gc d).poolAlive = false) ∧
    file_close_real (file_close_real f).1 =
      ((file_close_real f).1, APR_SUCCESS) ∧
    (f.handleOpen = false → file_close_real f = (f, APR_SUCCESS)) ∧
    (d.handleOpen = false →
      dir_close d = Except.error "attempt to use a closed directory") ∧
    (f.handleOpen = false →
      file_close f = Except.error "attempt to use a closed file") := by
  obtain ⟨dh, dp⟩ := d
  obtain ⟨fh, fp, fb⟩ := f
  cases dh <;> cases fh <;>
    simp [dir_gc, dir_close, file_close_real, file_close]

/-- Witness for the amended C8 on concrete closed handles. -/
theorem handle_close_exactly_once_witness :
    dir_gc (dir_gc { handleOpen := false, poolAlive := true }) =
      dir_gc { handleOpen := false, poolAlive := true } ∧
    dir_close { handleOpen := false, poolAlive := true } =
      Except.error "attempt to use a closed directory" ∧
    file_close { handleOpen := false, poolAlive := true, bufferAlive := true } =
      Except.error "attempt to use a closed file" := by
  have h := handle_close_exactly_once
      { handleOpen := false, poolAlive := true }
      { handleOpen := false, poolAlive := true, bufferAlive := true }
  exact ⟨h.1, h.2.2.2.2.2.1 rfl, h.2.2.2.2.2.2 rfl⟩

/-! ## Argument extraction of `lua_apr_file_copy` / `lua_apr_file_append`
/ `lua_apr_file_rename` (`io_file.c` lines 28-82, claim C9) -/

/-- Model of `luaL_checkstring(L, i)` over the string arguments of the
call: the `i`-th Lua stack slot (1-based). -/
def luaL_checkstring (stack : List String) (i : Nat) : Option String :=
  stack.get? (i - 1)

/-- Embedding of the argument extraction of `lua_apr_file_copy`
(`io_file.c` lines 34-35): `source = luaL_checkstring(L, 1)` and
`target = luaL_checkstring(L, 1)` -- both read stack slot 1. -/
def lua_apr_file_copy_paths (stack : List String) : Option (String × String) :=
  match luaL_checkstring stack 1, luaL_checkstring stack 1 with
  | some source, some target => some (source, target)
  | _, _ => none

/-- Embedding of the argument extraction of `lua_apr_file_append`
(`io_file.c` lines 56-57): both paths read stack slot 1. -/
def lua_apr_file_append_paths (stack : List String) :
    Option (String × String) :=
  match luaL_checkstring stack 1, luaL_checkstring stack 1 with
  | some source, some target => some (source, target)
  | _, _ => none

/-- Embedding of the argument extraction of `lua_apr_file_rename`
(`io_file.c` lines 77-78): both paths read stack slot 1. -/
def lua_apr_file_rename_paths (stack : List String) :
    Option (String × String) :=
  match luaL_checkstring stack 1, luaL_checkstring stack 1 with
  | some source, some target => some (source, target)
  | _, _ => none

/-- C9: for every call to `apr.file_copy`, `apr.file_append` or
`apr.file_rename` with first argument `s` and second argument `t`, both
the source and the target path are read from the first argument: the
underlying operation is invoked with `(s, s)`, and the second argument
`t` is ignored entirely. -/
theorem file_copy_append_rename_target_eq_source (s t : String)
    (rest : List String) :
    lua_apr_file_copy_paths (s :: t :: rest) = some (s, s) ∧
    lua_apr_file_append_paths (s :: t :: rest) = some (s, s) ∧
    lua_apr_file_rename_paths (s :: t :: rest) = some (s, s) :=
  ⟨rfl, rfl, rfl⟩

/-! ## The entry filter of `dir_read` (`io_dir.c` lines 308-339,
claim C10) -/

/-- The slice of `apr_finfo_t` relevant to `dir_read`'s filter: the entry
name when `APR_FINFO_NAME` is among the valid fields (`info.valid`),
`none` when the name could not be retrieved. -/
structure StatInfo where
  name : Option String
  deriving DecidableEq, Repr

/-- Embedding of the retry loop of `dir_read` (`io_dir.c` lines 327-338)
over a stream of `apr_dir_read` outcomes: on success or incomplete
status, an entry whose valid name is a self/parent marker is skipped and
the next entry fetched, any other entry is returned; `APR_ENOENT` ends
the iteration with no result; any other status raises that error.  An
exhausted stream is modelled as no result. -/
def dir_read : List (Nat × StatInfo) → Except Nat (Option StatInfo)
  | [] => Except.ok none
  | (s, info) :: rest =>
    if s = APR_SUCCESS ∨ s = APR_INCOMPLETE then
      match info.name with
      | some n =>
        if filename_symbolic n then dir_read rest else Except.ok (some info)
      | none => Except.ok (some info)
    else if s = APR_ENOENT then Except.ok none
    else Except.error s

theorem dir_read_result_not_symbolic (stream : List (Nat × StatInfo))
    (info : StatInfo) (h : dir_read stream = Except.ok (some info)) :
    ∀ n, info.name = some n → filename_symbolic n = false := by
  induction stream with
  | nil =>
    rw [dir_read] at h
    simp at h
  | cons x rest2 ih =>
    obtain ⟨s, i⟩ := x
    rw [dir_read] at h
    by_cases hok : s = APR_SUCCESS ∨ s = APR_INCOMPLETE
    · rw [if_pos hok] at h
      cases hni : i.name with
      | some m =>
        rw [hni] at h
        dsimp only at h
        by_cases hsym : filename_symbolic m
        · rw [if_pos hsym] at h
          exact ih h
        · rw [if_neg hsym] at h
          obtain rfl : i = info := by simpa using h
          intro n hn
          rw [hni] at hn
          obtain rfl : m = n := by simpa using hn
          simpa using hsym
      | none =>
        rw [hni] at h
        dsimp only at h
        obtain rfl : i = info := by simpa using h
        intro n hn
        rw [hni] at hn
        cases hn
    · rw [if_neg hok] at h
      by_cases hen : s = APR_ENOENT
      · rw [if_pos hen] at h
        simp at h
      · rw [if_neg hen] at h
        cases h

/-- C10: `directory:read()` (and the `directory:entries()` iterator,
which runs the same loop) never returns an entry whose name is the self
or parent marker: every returned entry with a valid name has a
non-symbolic name (first conjunct), and an entry named by a marker is
silently skipped, the loop continuing with the next entry (second
conjunct). -/
theorem dir_read_skips_self_parent (stream : List (Nat × StatInfo))
    (info : StatInfo) (rest : List (Nat × StatInfo)) (n0 : String) :
    (dir_read stream = Except.ok (some info) →
      ∀ n, info.name = some n → filename_symbolic n = false) ∧
    (filename_symbolic n0 = true →
      dir_read ((APR_SUCCESS, StatInfo.mk (some n0)) :: rest)
        = dir_read rest) := by
  constructor
  · exact dir_read_result_not_symbolic stream info
  · intro hsym
    rw [dir_read]
    simp [hsym]

/-- Witness for C10: on the stream yielding ".", then "x", the loop skips
the marker and returns the entry named "x", whose name is not a marker. -/
theorem dir_read_skips_self_parent_witness :
    filename_symbolic "x" = false ∧
    dir_read [((APR_SUCCESS : Nat), StatInfo.mk (some "."))] = dir_read [] := by
  have h := dir_read_skips_self_parent
      [(APR_SUCCESS, StatInfo.mk (some ".")),
       (APR_SUCCESS, StatInfo.mk (some "x"))]
      (StatInfo.mk (some "x")) [] "."
  refine ⟨h.1 ?_ "x" rfl, h.2 (by simp [filename_symbolic])⟩
  simp [dir_read, filename_symbolic, APR_SUCCESS, APR_INCOMPLETE]
